import Mathlib

/-!
Verification of the DDC core: a shallow embedding of the periodic sampling,
discrete domains, tagged tuples, strided-domain iteration and the chunk layer,
with theorems settling the specified properties.

`Real` (C++ `double`) is embedded as `ℚ`: every property below is decided by
exact integer index arithmetic, so an equality proved here between two
expressions built from the same floating-point operations on the same operands
transfers to bitwise equality of the doubles.
-/

namespace DDC

/-- One-dimensional discrete domain: `(front, extent)`, denoting the index
set `{front, …, front + extent − 1}` (`discrete_domain.hpp`). -/
structure DiscreteDomain where
  front : ℕ
  extent : ℕ
  deriving DecidableEq, Repr

/-- Modelled from the spec: `take_first(n)` (from `discrete_domain.hpp`, not in
`src/`) returns the leading `n` slice of the domain. -/
def DiscreteDomain.take_first (d : DiscreteDomain) (n : ℕ) : DiscreteDomain :=
  ⟨d.front, n⟩

/-- Modelled from the spec: `take_last(n)` (from `discrete_domain.hpp`, not in
`src/`) returns the trailing `n` slice of the domain. -/
def DiscreteDomain.take_last (d : DiscreteDomain) (n : ℕ) : DiscreteDomain :=
  ⟨d.front + d.extent - n, n⟩

/-- Modelled from the spec: `remove(n_front, n_back)` (from
`discrete_domain.hpp`, not in `src/`) returns a domain with extents reduced by
`n_front + n_back` and front advanced by `n_front`. -/
def DiscreteDomain.remove (d : DiscreteDomain) (n_front n_back : ℕ) : DiscreteDomain :=
  ⟨d.front + n_front, d.extent - n_front - n_back⟩

/-- Membership of an index in a one-dimensional domain. -/
def DiscreteDomain.mem (d : DiscreteDomain) (i : ℕ) : Prop :=
  d.front ≤ i ∧ i < d.front + d.extent

/-- `PeriodicSampling::Impl` state (`periodic_sampling.hpp`): an origin
coordinate, a positive spacing step and the number of steps in a period. -/
structure PeriodicSamplingImpl where
  m_origin : ℚ
  m_step : ℚ
  m_n_period : ℕ

/-- `Impl::coordinate` (`periodic_sampling.hpp` lines 132-140):
`origin + (int((uid + n_period/2) % n_period) - int(n_period/2)) * step`,
with `size_t` division and modulus embedded as `Nat` division and modulus. -/
def PeriodicSamplingImpl.coordinate (impl : PeriodicSamplingImpl) (uid : ℕ) : ℚ :=
  impl.m_origin
    + ((((uid + impl.m_n_period / 2) % impl.m_n_period : ℕ) : ℤ)
        - ((impl.m_n_period / 2 : ℕ) : ℤ) : ℤ) * impl.m_step

/-- The spec formula for the periodic coordinate, written with integer
arithmetic as in the spec text:
`coord(uid) = origin + (((uid + n_period/2) mod n_period) − n_period/2)·step`. -/
def coordSpecFormula (origin step : ℚ) (n_period : ℕ) (uid : ℕ) : ℚ :=
  origin
    + ((((uid : ℤ) + (n_period : ℤ) / 2) % (n_period : ℤ)) - (n_period : ℤ) / 2 : ℤ) * step

/-- Assertions of the `Impl` constructor (`periodic_sampling.hpp` lines 97-98):
`assert(step > 0); assert(n_period > 0);`. -/
def implCtorAssert (step : ℚ) (n_period : ℕ) : Prop :=
  0 < step ∧ 0 < n_period

/-- Assertions of `PeriodicSampling::init` (`periodic_sampling.hpp` lines
160-162): `assert(a < b); assert(n > 1); assert(n_period > 1);`. -/
def initAssert (a b : ℚ) (n n_period : ℕ) : Prop :=
  a < b ∧ 1 < n ∧ 1 < n_period

/-- `PeriodicSampling::init` (`periodic_sampling.hpp` lines 153-167): builds
the `Impl` with origin `a`, step `(b−a)/(n−1)` and the domain `[0, n)`. -/
def periodicInit (a b : ℚ) (n n_period : ℕ) :
    PeriodicSamplingImpl × DiscreteDomain :=
  (⟨a, (b - a) / ((n : ℚ) - 1), n_period⟩, ⟨0, n⟩)

/-- Result record of `PeriodicSampling::init_ghosted`, in the source's tuple
order: `(disc, main_domain, ghosted_domain, pre_ghost, post_ghost)`. -/
structure GhostedResult where
  disc : PeriodicSamplingImpl
  main_domain : DiscreteDomain
  ghosted_domain : DiscreteDomain
  pre_ghost : DiscreteDomain
  post_ghost : DiscreteDomain

/-- `PeriodicSampling::init_ghosted` (`periodic_sampling.hpp` lines 181-214):
step `(b−a)/(n−1)`, origin `a − n_ghosts_before·step`, the ghosted domain
`[0, n + n_ghosts_before + n_ghosts_after)` and its `take_first`, `remove`,
`take_last` sub-domains. -/
def initGhosted (a b : ℚ) (n n_period n_ghosts_before n_ghosts_after : ℕ) :
    GhostedResult :=
  ⟨⟨a - (n_ghosts_before : ℚ) * ((b - a) / ((n : ℚ) - 1)),
    (b - a) / ((n : ℚ) - 1), n_period⟩,
   (⟨0, n + n_ghosts_before + n_ghosts_after⟩ : DiscreteDomain).remove
     n_ghosts_before n_ghosts_after,
   ⟨0, n + n_ghosts_before + n_ghosts_after⟩,
   (⟨0, n + n_ghosts_before + n_ghosts_after⟩ : DiscreteDomain).take_first
     n_ghosts_before,
   (⟨0, n + n_ghosts_before + n_ghosts_after⟩ : DiscreteDomain).take_last
     n_ghosts_after⟩

/-- Mirror domains built by the caller (`non_uniform_heat_equation.cpp` lines
180-183): `pre_mirror = (pre_ghost.front() + main.extents(), pre_ghost.extents())`
and `post_mirror = (post_ghost.front() − main.extents(), post_ghost.extents())`. -/
def preMirror (pre_ghost : DiscreteDomain) (main_extent : ℕ) : DiscreteDomain :=
  ⟨pre_ghost.front + main_extent, pre_ghost.extent⟩

/-- `post_mirror` as built in `non_uniform_heat_equation.cpp` lines 180-181. -/
def postMirror (post_ghost : DiscreteDomain) (main_extent : ℕ) : DiscreteDomain :=
  ⟨post_ghost.front - main_extent, post_ghost.extent⟩

lemma coordinate_eq_spec_formula (impl : PeriodicSamplingImpl) (uid : ℕ) :
    impl.coordinate uid
      = coordSpecFormula impl.m_origin impl.m_step impl.m_n_period uid := by
  unfold PeriodicSamplingImpl.coordinate coordSpecFormula
  congr 2

lemma principal_bound_lower (o s : ℚ) (c m : ℤ) (h : -c ≤ m) (hs : 0 ≤ s) :
    o - (c : ℚ) * s ≤ o + (m : ℚ) * s := by
  have h1 : -(c : ℚ) ≤ (m : ℚ) := by exact_mod_cast h
  nlinarith [mul_nonneg (by linarith : (0 : ℚ) ≤ (m : ℚ) + (c : ℚ)) hs]

lemma principal_bound_upper (o s : ℚ) (u m : ℤ) (h : m ≤ u) (hs : 0 ≤ s) :
    o + (m : ℚ) * s ≤ o + (u : ℚ) * s := by
  have h1 : (m : ℚ) ≤ (u : ℚ) := by exact_mod_cast h
  nlinarith [mul_nonneg (by linarith : (0 : ℚ) ≤ (u : ℚ) - (m : ℚ)) hs]

lemma coordinate_factor_bounds (P : ℕ) (uid : ℕ) (hP : 0 < P) :
    -(((P / 2 : ℕ) : ℤ)) ≤ (((uid + P / 2) % P : ℕ) : ℤ) - ((P / 2 : ℕ) : ℤ)
      ∧ (((uid + P / 2) % P : ℕ) : ℤ) - ((P / 2 : ℕ) : ℤ)
          ≤ ((P : ℤ) - 1) - ((P / 2 : ℕ) : ℤ) := by
  have hmod : (uid + P / 2) % P < P := Nat.mod_lt _ hP
  constructor
  · have : (0 : ℤ) ≤ (((uid + P / 2) % P : ℕ) : ℤ) := Int.natCast_nonneg _
    omega
  · have : (((uid + P / 2) % P : ℕ) : ℤ) < (P : ℤ) := by exact_mod_cast hmod
    omega

/-- C1: for a periodic sampling with origin `o`, step `s` and period count
`P = n_period`, `coordinate(uid) = o + (((uid + P/2) mod P) − P/2)·s` for every
`uid ≥ 0` (with `P/2` integer division), and consequently the coordinate lies
in the principal interval centred on the origin,
`[o − (P/2)·s, o + (P − 1 − P/2)·s]`. -/
theorem periodic_coordinate_principal (impl : PeriodicSamplingImpl) (uid : ℕ)
    (hstep : 0 < impl.m_step) (hP : 0 < impl.m_n_period) :
    impl.coordinate uid
        = coordSpecFormula impl.m_origin impl.m_step impl.m_n_period uid
      ∧ impl.m_origin - (((impl.m_n_period / 2 : ℕ) : ℤ) : ℚ) * impl.m_step
          ≤ impl.coordinate uid
      ∧ impl.coordinate uid
          ≤ impl.m_origin
              + ((((impl.m_n_period : ℤ) - 1) - ((impl.m_n_period / 2 : ℕ) : ℤ) : ℤ) : ℚ)
                  * impl.m_step := by
  obtain ⟨hlo, hhi⟩ := coordinate_factor_bounds impl.m_n_period uid hP
  refine ⟨coordinate_eq_spec_formula impl uid, ?_, ?_⟩
  · exact principal_bound_lower impl.m_origin impl.m_step _ _ hlo hstep.le
  · exact principal_bound_upper impl.m_origin impl.m_step _ _ hhi hstep.le

/-- Witness for C1: the periodic sampling `(origin 0, step 1, n_period 4)` at
`uid = 5`. -/
theorem periodic_coordinate_principal_witness :
    PeriodicSamplingImpl.coordinate ⟨0, 1, 4⟩ 5 = coordSpecFormula 0 1 4 5
      ∧ (0 : ℚ) - (((4 / 2 : ℕ) : ℤ) : ℚ) * 1
          ≤ PeriodicSamplingImpl.coordinate ⟨0, 1, 4⟩ 5
      ∧ PeriodicSamplingImpl.coordinate ⟨0, 1, 4⟩ 5
          ≤ 0 + (((((4 : ℕ) : ℤ) - 1) - ((4 / 2 : ℕ) : ℤ) : ℤ) : ℚ) * 1 :=
  periodic_coordinate_principal ⟨0, 1, 4⟩ 5 (by norm_num) (by norm_num)

/-- C2: for a periodic sampling with period count `P = n_period`,
`coordinate(i + k·P) = coordinate(i)` exactly, for every index `i ≥ 0` and
every `k ≥ 0`: the integer factor of the step is computed from identical
integers, so the result is equal without any floating-point tolerance. -/
theorem periodic_coordinate_periodicity (impl : PeriodicSamplingImpl)
    (uid k : ℕ) :
    impl.coordinate (uid + k * impl.m_n_period) = impl.coordinate uid := by
  have h : (uid + k * impl.m_n_period + impl.m_n_period / 2) % impl.m_n_period
      = (uid + impl.m_n_period / 2) % impl.m_n_period := by
    have hrw : uid + k * impl.m_n_period + impl.m_n_period / 2
        = uid + impl.m_n_period / 2 + k * impl.m_n_period := by ring
    rw [hrw, Nat.add_mul_mod_self_right]
  simp only [PeriodicSamplingImpl.coordinate, h]

/-- C7: `init_ghosted(a, b, n, n_period, g_pre, g_post)` returns step
`(b−a)/(n−1)`, origin `a − g_pre·step`, the ghosted domain `(front 0,
extent n + g_pre + g_post)`, the main domain `ghosted.remove(g_pre, g_post) =
(front g_pre, extent n)`, the pre-ghost `ghosted.take_first(g_pre) =
(front 0, extent g_pre)` and the post-ghost `ghosted.take_last(g_post) =
(front n + g_pre, extent g_post)`. -/
theorem init_ghosted_spec (a b : ℚ) (n n_period g_pre g_post : ℕ)
    (hab : a < b) (hn : 2 ≤ n) (hnp : 2 ≤ n_period) :
    (initGhosted a b n n_period g_pre g_post).disc.m_step = (b - a) / ((n : ℚ) - 1)
      ∧ (initGhosted a b n n_period g_pre g_post).disc.m_origin
          = a - (g_pre : ℚ) * ((b - a) / ((n : ℚ) - 1))
      ∧ (initGhosted a b n n_period g_pre g_post).disc.m_n_period = n_period
      ∧ (initGhosted a b n n_period g_pre g_post).ghosted_domain
          = ⟨0, n + g_pre + g_post⟩
      ∧ (initGhosted a b n n_period g_pre g_post).main_domain
          = ((initGhosted a b n n_period g_pre g_post).ghosted_domain).remove g_pre g_post
      ∧ (initGhosted a b n n_period g_pre g_post).main_domain = ⟨g_pre, n⟩
      ∧ (initGhosted a b n n_period g_pre g_post).pre_ghost
          = ((initGhosted a b n n_period g_pre g_post).ghosted_domain).take_first g_pre
      ∧ (initGhosted a b n n_period g_pre g_post).pre_ghost = ⟨0, g_pre⟩
      ∧ (initGhosted a b n n_period g_pre g_post).post_ghost
          = ((initGhosted a b n n_period g_pre g_post).ghosted_domain).take_last g_post
      ∧ (initGhosted a b n n_period g_pre g_post).post_ghost = ⟨n + g_pre, g_post⟩ := by
  refine ⟨rfl, rfl, rfl, rfl, rfl, ?_, rfl, ?_, rfl, ?_⟩
  · simp only [initGhosted, DiscreteDomain.remove, DiscreteDomain.mk.injEq, and_true, true_and]
    omega
  · simp only [initGhosted, DiscreteDomain.take_first]
  · simp only [initGhosted, DiscreteDomain.take_last, DiscreteDomain.mk.injEq, and_true, true_and]
    omega

/-- Witness for C7: `init_ghosted(0, 1, 4, 4, 2, 1)`. -/
theorem init_ghosted_spec_witness :
    (initGhosted 0 1 4 4 2 1).disc.m_step = (1 - 0) / (((4 : ℕ) : ℚ) - 1)
      ∧ (initGhosted 0 1 4 4 2 1).disc.m_origin
          = 0 - ((2 : ℕ) : ℚ) * ((1 - 0) / (((4 : ℕ) : ℚ) - 1))
      ∧ (initGhosted 0 1 4 4 2 1).disc.m_n_period = 4
      ∧ (initGhosted 0 1 4 4 2 1).ghosted_domain = ⟨0, 4 + 2 + 1⟩
      ∧ (initGhosted 0 1 4 4 2 1).main_domain
          = ((initGhosted 0 1 4 4 2 1).ghosted_domain).remove 2 1
      ∧ (initGhosted 0 1 4 4 2 1).main_domain = ⟨2, 4⟩
      ∧ (initGhosted 0 1 4 4 2 1).pre_ghost
          = ((initGhosted 0 1 4 4 2 1).ghosted_domain).take_first 2
      ∧ (initGhosted 0 1 4 4 2 1).pre_ghost = ⟨0, 2⟩
      ∧ (initGhosted 0 1 4 4 2 1).post_ghost
          = ((initGhosted 0 1 4 4 2 1).ghosted_domain).take_last 1
      ∧ (initGhosted 0 1 4 4 2 1).post_ghost = ⟨4 + 2, 1⟩ :=
  init_ghosted_spec 0 1 4 4 2 1 (by norm_num) (by norm_num) (by norm_num)

/-- C8: for the domains returned by `init_ghosted` with main extent `n`, the
caller-built `pre_mirror = (pre_ghost.front() + n, pre_ghost.extents())` equals
`main.take_last(g_pre)`, the last `g_pre` interior indices, and
`post_mirror = (post_ghost.front() − n, post_ghost.extents())` equals
`main.take_first(g_post)`, the first `g_post` interior indices; both are
subsets of the main domain. -/
theorem ghosted_mirror_spec (a b : ℚ) (n n_period g_pre g_post : ℕ)
    (hpre : g_pre ≤ n) (hpost : g_post ≤ n) :
    preMirror (initGhosted a b n n_period g_pre g_post).pre_ghost
        ((initGhosted a b n n_period g_pre g_post).main_domain).extent
      = ((initGhosted a b n n_period g_pre g_post).main_domain).take_last g_pre
    ∧ postMirror (initGhosted a b n n_period g_pre g_post).post_ghost
        ((initGhosted a b n n_period g_pre g_post).main_domain).extent
      = ((initGhosted a b n n_period g_pre g_post).main_domain).take_first g_post
    ∧ (∀ i : ℕ,
        (preMirror (initGhosted a b n n_period g_pre g_post).pre_ghost
          ((initGhosted a b n n_period g_pre g_post).main_domain).extent).mem i
          → ((initGhosted a b n n_period g_pre g_post).main_domain).mem i)
    ∧ (∀ i : ℕ,
        (postMirror (initGhosted a b n n_period g_pre g_post).post_ghost
          ((initGhosted a b n n_period g_pre g_post).main_domain).extent).mem i
          → ((initGhosted a b n n_period g_pre g_post).main_domain).mem i) := by
  refine ⟨?_, ?_, ?_, ?_⟩
  · simp only [initGhosted, preMirror, DiscreteDomain.take_last,
      DiscreteDomain.take_first, DiscreteDomain.remove, DiscreteDomain.mk.injEq, and_true, true_and]
    omega
  · simp only [initGhosted, postMirror, DiscreteDomain.take_last,
      DiscreteDomain.take_first, DiscreteDomain.remove, DiscreteDomain.mk.injEq, and_true, true_and]
    omega
  · intro i
    simp only [initGhosted, preMirror, DiscreteDomain.take_first,
      DiscreteDomain.remove, DiscreteDomain.mem]
    omega
  · intro i
    simp only [initGhosted, postMirror, DiscreteDomain.take_last,
      DiscreteDomain.take_first, DiscreteDomain.remove, DiscreteDomain.mem]
    omega

/-- Witness for C8: `init_ghosted` with `n = 4`, `g_pre = 2`, `g_post = 1`. -/
theorem ghosted_mirror_spec_witness :
    preMirror (initGhosted 0 1 4 4 2 1).pre_ghost
        ((initGhosted 0 1 4 4 2 1).main_domain).extent
      = ((initGhosted 0 1 4 4 2 1).main_domain).take_last 2
    ∧ postMirror (initGhosted 0 1 4 4 2 1).post_ghost
        ((initGhosted 0 1 4 4 2 1).main_domain).extent
      = ((initGhosted 0 1 4 4 2 1).main_domain).take_first 1
    ∧ (∀ i : ℕ,
        (preMirror (initGhosted 0 1 4 4 2 1).pre_ghost
          ((initGhosted 0 1 4 4 2 1).main_domain).extent).mem i
          → ((initGhosted 0 1 4 4 2 1).main_domain).mem i)
    ∧ (∀ i : ℕ,
        (postMirror (initGhosted 0 1 4 4 2 1).post_ghost
          ((initGhosted 0 1 4 4 2 1).main_domain).extent).mem i
          → ((initGhosted 0 1 4 4 2 1).main_domain).mem i) :=
  ghosted_mirror_spec 0 1 4 4 2 1 (by norm_num) (by norm_num)

/-- C9 counterexample: the `Impl` constructor's assertions (`step > 0`,
`n_period > 0`) accept `step = 1`, `n_period = 1`, yet `n_period = 1` violates
`n_period ≥ 2`; so construction does not reject every period count below 2. -/
theorem periodic_ctor_nperiod_counterexample :
    implCtorAssert 1 1 ∧ ¬ (2 ≤ (1 : ℕ)) :=
  ⟨⟨by norm_num, by norm_num⟩, by omega⟩

/-- C9 amended: the `Impl` constructor asserts only `step > 0` and
`n_period ≥ 1`; the stronger bound `n_period ≥ 2` is enforced by `init`, whose
assertions (`a < b`, `n > 1`, `n_period > 1`) guarantee that the sampling it
builds has `step = (b−a)/(n−1) > 0` and `n_period ≥ 2`. -/
theorem periodic_ctor_assert_amended :
    (∀ (s : ℚ) (np : ℕ), implCtorAssert s np → 0 < s ∧ 1 ≤ np)
      ∧ (∀ (a b : ℚ) (n np : ℕ), initAssert a b n np →
          0 < (periodicInit a b n np).1.m_step
            ∧ 2 ≤ (periodicInit a b n np).1.m_n_period) := by
  constructor
  · rintro s np ⟨h1, h2⟩
    exact ⟨h1, h2⟩
  · rintro a b n np ⟨hab, hn, hnp⟩
    refine ⟨?_, hnp⟩
    show 0 < (b - a) / ((n : ℚ) - 1)
    have h1 : (1 : ℚ) < (n : ℚ) := by exact_mod_cast hn
    apply div_pos (by linarith) (by linarith)

/-- Witness for C9 (amended): `init(0, 1, 3, 4)`. -/
theorem periodic_ctor_assert_amended_witness :
    0 < (periodicInit 0 1 3 4).1.m_step ∧ 2 ≤ (periodicInit 0 1 3 4).1.m_n_period :=
  periodic_ctor_assert_amended.2 0 1 3 4 ⟨by norm_num, by norm_num, by norm_num⟩

/-- A tag: a nominal compile-time identifier for a dimension, embedded as a
natural number. -/
abbrev Tag := ℕ

/-- Modelled from the spec: `tag_rank_v` (`taggedtuple.h` lines 12-16)
dispatches through `RankIn` from `taggedarray.h`, which is not under `src/`:
the rank is the position of the query tag in the tuple's tag list. -/
def tag_rank (query : Tag) : List Tag → ℕ
  | [] => 0
  | t :: ts => if t = query then 0 else tag_rank query ts + 1

/-- `TaggedTuple` (`taggedtuple.h`): an ordered tag list and the stored
values; the variadic constructor (lines 36-40) stores one supplied value per
tag in declaration order. -/
structure TaggedTuple (α : Type) where
  tags : List Tag
  m_values : List α

/-- `TaggedTuple::get` (`taggedtuple.h` lines 103-113):
`std::get<tag_rank_v<QueryTag, TaggedTuple>>(m_values)`. -/
def TaggedTuple.get (t : TaggedTuple α) (query : Tag) : Option α :=
  t.m_values.get? (tag_rank query t.tags)

/-- Construction of a `TaggedTuple` from one value per tag in declaration
order, given as a tag-value association list. -/
def mkTaggedTuple {α : Type} (l : List (Tag × α)) : TaggedTuple α :=
  ⟨l.map Prod.fst, l.map Prod.snd⟩

/-- C10: for a `TaggedTuple` built from one value per tag in declaration
order (pairwise-distinct tags), `get<Tag>` returns exactly the value supplied
for that tag: dispatch through `tag_rank` selects the component by tag, for
every tag in the tuple's tag set. -/
theorem taggedtuple_get_spec {α : Type} (q : Tag) (v : α) :
    ∀ l : List (Tag × α), (l.map Prod.fst).Nodup → (q, v) ∈ l →
      (mkTaggedTuple l).get q = some v := by
  intro l
  induction l with
  | nil =>
    intro _ hmem
    simp at hmem
  | cons p rest ih =>
    intro hnd hmem
    obtain ⟨t, w⟩ := p
    simp only [List.map_cons, List.nodup_cons] at hnd
    obtain ⟨htn, hndr⟩ := hnd
    simp only [mkTaggedTuple, TaggedTuple.get, List.map_cons, tag_rank]
    by_cases hq : t = q
    · subst hq
      rcases List.mem_cons.mp hmem with heq | hrest
      · obtain ⟨rfl, rfl⟩ := Prod.mk.injEq .. ▸ And.intro (congrArg Prod.fst heq) (congrArg Prod.snd heq)
        simp
      · exact absurd (List.mem_map.mpr ⟨(t, v), hrest, rfl⟩) htn
    · rcases List.mem_cons.mp hmem with heq | hrest
      · exact absurd (congrArg Prod.fst heq).symm hq
      · have hres := ih hndr hrest
        simpa [mkTaggedTuple, TaggedTuple.get, if_neg hq] using hres

/-- Witness for C10: tags `(3, 7, 5)` with values `(10, 20, 30)`; querying
tag `7` returns `20`. -/
theorem taggedtuple_get_spec_witness :
    (mkTaggedTuple [(3, 10), (7, 20), (5, 30)]).get 7 = some (20 : ℕ) :=
  taggedtuple_get_spec 7 20 [(3, 10), (7, 20), (5, 30)] (by decide) (by decide)

/-- Ceiling division `⌈e / s⌉`: number of visited points per dimension of a
strided domain. -/
def ceilDiv (e s : ℕ) : ℕ := (e + s - 1) / s

/-- Modelled from the spec: `StridedDiscreteDomain<DDimX, DDimY>` (used by
`parallel_for_each.cpp` lines 158-178; its header is not under `src/`): a
two-dimensional domain with per-dimension front, extent and positive stride. -/
structure StridedDomain2 where
  front1 : ℕ
  front2 : ℕ
  extent1 : ℕ
  extent2 : ℕ
  stride1 : ℕ
  stride2 : ℕ
  deriving DecidableEq, Repr

/-- `size()`: the product over dimensions of `ceil(extent / stride)`. -/
def StridedDomain2.size (d : StridedDomain2) : ℕ :=
  ceilDiv d.extent1 d.stride1 * ceilDiv d.extent2 d.stride2

/-- `contains(e)`: the element lies in the extent box and is aligned to the
stride lattice based at the front. -/
def StridedDomain2.contains (d : StridedDomain2) (p : ℕ × ℕ) : Prop :=
  d.front1 ≤ p.1 ∧ p.1 < d.front1 + d.extent1 ∧ (p.1 - d.front1) % d.stride1 = 0
    ∧ d.front2 ≤ p.2 ∧ p.2 < d.front2 + d.extent2 ∧ (p.2 - d.front2) % d.stride2 = 0

instance (d : StridedDomain2) (p : ℕ × ℕ) : Decidable (d.contains p) := by
  unfold StridedDomain2.contains
  infer_instance

/-- Iteration over the domain in declared tag order (outer dimension slowest):
visits `front + k·stride` for `0 ≤ k < ceil(extent/stride)` per dimension.
Both `for_each` and `parallel_for_each` invoke the kernel on exactly this
multiset of elements, so the invocation count at `p` is `elems.count p`. -/
def StridedDomain2.elems (d : StridedDomain2) : List (ℕ × ℕ) :=
  (List.range (ceilDiv d.extent1 d.stride1)).bind fun k1 =>
    (List.range (ceilDiv d.extent2 d.stride2)).map fun k2 =>
      (d.front1 + k1 * d.stride1, d.front2 + k2 * d.stride2)

lemma lt_ceilDiv_iff (e s k : ℕ) (hs : 0 < s) : k < ceilDiv e s ↔ k * s < e := by
  unfold ceilDiv
  rw [Nat.lt_iff_add_one_le, Nat.le_div_iff_mul_le hs, Nat.add_mul, one_mul]
  omega

lemma sum_map_const {α : Type} (l : List α) (c : ℕ) :
    (l.map (fun _ => c)).sum = l.length * c := by
  induction l with
  | nil => simp
  | cons a t ih => simp [ih, Nat.succ_mul, Nat.add_comm]

lemma mem_elems_iff (d : StridedDomain2) (hs1 : 0 < d.stride1)
    (hs2 : 0 < d.stride2) (p : ℕ × ℕ) :
    p ∈ d.elems ↔ d.contains p := by
  unfold StridedDomain2.elems StridedDomain2.contains
  simp only [List.mem_bind, List.mem_map, List.mem_range]
  constructor
  · rintro ⟨k1, hk1, k2, hk2, rfl⟩
    have h1 := (lt_ceilDiv_iff d.extent1 d.stride1 k1 hs1).mp hk1
    have h2 := (lt_ceilDiv_iff d.extent2 d.stride2 k2 hs2).mp hk2
    refine ⟨Nat.le_add_right _ _, by omega, ?_, Nat.le_add_right _ _, by omega, ?_⟩
    · rw [Nat.add_sub_cancel_left]
      exact Nat.mul_mod_left k1 d.stride1
    · rw [Nat.add_sub_cancel_left]
      exact Nat.mul_mod_left k2 d.stride2
  · rintro ⟨hf1, he1, hm1, hf2, he2, hm2⟩
    refine ⟨(p.1 - d.front1) / d.stride1, ?_, (p.2 - d.front2) / d.stride2, ?_, ?_⟩
    · rw [lt_ceilDiv_iff _ _ _ hs1, Nat.div_mul_cancel (Nat.dvd_of_mod_eq_zero hm1)]
      omega
    · rw [lt_ceilDiv_iff _ _ _ hs2, Nat.div_mul_cancel (Nat.dvd_of_mod_eq_zero hm2)]
      omega
    · have e1 : (p.1 - d.front1) / d.stride1 * d.stride1 = p.1 - d.front1 :=
        Nat.div_mul_cancel (Nat.dvd_of_mod_eq_zero hm1)
      have e2 : (p.2 - d.front2) / d.stride2 * d.stride2 = p.2 - d.front2 :=
        Nat.div_mul_cancel (Nat.dvd_of_mod_eq_zero hm2)
      have hp1 : d.front1 + (p.1 - d.front1) / d.stride1 * d.stride1 = p.1 := by
        rw [e1]; omega
      have hp2 : d.front2 + (p.2 - d.front2) / d.stride2 * d.stride2 = p.2 := by
        rw [e2]; omega
      rw [hp1, hp2]

lemma elems_nodup (d : StridedDomain2) (hs1 : 0 < d.stride1)
    (hs2 : 0 < d.stride2) : d.elems.Nodup := by
  unfold StridedDomain2.elems
  rw [List.nodup_bind]
  constructor
  · intro k1 _
    refine List.Nodup.map ?_ (List.nodup_range _)
    intro a b hab
    have := congrArg Prod.snd hab
    simp only at this
    have : a * d.stride2 = b * d.stride2 := by omega
    exact Nat.eq_of_mul_eq_mul_right hs2 this
  · refine List.Pairwise.imp ?_ (List.pairwise_lt_range _)
    intro a b hab x hxa hxb
    simp only [List.mem_map, List.mem_range] at hxa hxb
    obtain ⟨ka, _, hka⟩ := hxa
    obtain ⟨kb, _, hkb⟩ := hxb
    have h1 := congrArg Prod.fst hka
    have h2 := congrArg Prod.fst hkb
    simp only at h1 h2
    have hmul : a * d.stride1 = b * d.stride1 := by omega
    have : a = b := Nat.eq_of_mul_eq_mul_right hs1 hmul
    omega

lemma elems_length (d : StridedDomain2) :
    d.elems.length = d.size := by
  unfold StridedDomain2.elems StridedDomain2.size
  rw [List.length_bind]
  have h : (List.length ∘ fun k1 =>
      List.map (fun k2 => (d.front1 + k1 * d.stride1, d.front2 + k2 * d.stride2))
        (List.range (ceilDiv d.extent2 d.stride2)))
      = fun _ => ceilDiv d.extent2 d.stride2 := by
    funext k1
    simp
  rw [h, sum_map_const, List.length_range]

/-- Number of kernel invocations `for_each`/`parallel_for_each` performs at
the element `p`: the multiplicity of `p` in the iteration sequence. -/
def invocationCount (l : List (ℕ × ℕ)) (p : ℕ × ℕ) : ℕ :=
  (l.filter (fun q => decide (q = p))).length

lemma invocationCount_eq_zero (l : List (ℕ × ℕ)) (p : ℕ × ℕ) (hp : p ∉ l) :
    invocationCount l p = 0 := by
  induction l with
  | nil => rfl
  | cons a t ih =>
    unfold invocationCount List.filter
    have hne : a ≠ p := fun h => hp (h ▸ List.mem_cons_self a t)
    simp only [hne, decide_eq_true_eq, decide_eq_false hne]
    exact ih (fun h => hp (List.mem_cons_of_mem a h))

lemma invocationCount_eq_one (l : List (ℕ × ℕ)) (p : ℕ × ℕ)
    (hnd : l.Nodup) (hp : p ∈ l) : invocationCount l p = 1 := by
  induction l with
  | nil => exact absurd hp (List.not_mem_nil p)
  | cons a t ih =>
    rw [List.nodup_cons] at hnd
    obtain ⟨hat, hndt⟩ := hnd
    rcases List.mem_cons.mp hp with rfl | hpt
    · unfold invocationCount List.filter
      simp only [decide_eq_true_eq, decide_True]
      rw [List.length_cons]
      have h0 : invocationCount t p = 0 := invocationCount_eq_zero t p hat
      unfold invocationCount at h0
      omega
    · have hne : a ≠ p := fun h => hat (h ▸ hpt)
      unfold invocationCount List.filter
      simp only [decide_eq_false hne]
      exact ih hndt hpt

/-- C3: iterating a (strided) discrete domain invokes the kernel exactly once
per element: the invocation count at `p` is 1 exactly when `p` is contained,
every visited element is contained, the number of invocations equals
`size() = Π ceil(extent/stride)`; stride 1 gives the ordinary domain with
`size = Π extents`, and extents `(10,12)` with strides `(3,3)` give 16. -/
theorem strided_domain_iteration (d : StridedDomain2)
    (hs1 : 0 < d.stride1) (hs2 : 0 < d.stride2) :
    d.elems.length = d.size
      ∧ (∀ p ∈ d.elems, d.contains p)
      ∧ (∀ p : ℕ × ℕ, d.contains p → invocationCount d.elems p = 1)
      ∧ (∀ f1 f2 e1 e2 : ℕ, StridedDomain2.size ⟨f1, f2, e1, e2, 1, 1⟩ = e1 * e2)
      ∧ StridedDomain2.size ⟨0, 0, 10, 12, 3, 3⟩ = 16 := by
  refine ⟨elems_length d, ?_, ?_, ?_, by decide⟩
  · intro p hp
    exact (mem_elems_iff d hs1 hs2 p).mp hp
  · intro p hp
    exact invocationCount_eq_one d.elems p (elems_nodup d hs1 hs2)
      ((mem_elems_iff d hs1 hs2 p).mpr hp)
  · intro f1 f2 e1 e2
    unfold StridedDomain2.size ceilDiv
    simp

/-- Witness for C3: the strided domain of `parallel_for_each.cpp` lines
158-178 - front `(0,0)`, extents `(10,12)`, strides `(3,3)`. -/
theorem strided_domain_iteration_witness :
    (StridedDomain2.elems ⟨0, 0, 10, 12, 3, 3⟩).length
        = StridedDomain2.size ⟨0, 0, 10, 12, 3, 3⟩
      ∧ (∀ p ∈ StridedDomain2.elems ⟨0, 0, 10, 12, 3, 3⟩,
          StridedDomain2.contains ⟨0, 0, 10, 12, 3, 3⟩ p)
      ∧ (∀ p : ℕ × ℕ, StridedDomain2.contains ⟨0, 0, 10, 12, 3, 3⟩ p →
          invocationCount (StridedDomain2.elems ⟨0, 0, 10, 12, 3, 3⟩) p = 1)
      ∧ (∀ f1 f2 e1 e2 : ℕ, StridedDomain2.size ⟨f1, f2, e1, e2, 1, 1⟩ = e1 * e2)
      ∧ StridedDomain2.size ⟨0, 0, 10, 12, 3, 3⟩ = 16 :=
  strided_domain_iteration ⟨0, 0, 10, 12, 3, 3⟩ (by decide) (by decide)

/-- Modelled from the spec: a chunk over a two-dimensional domain
`Dom<D1, D2>` (the `Chunk`/`ChunkSpan` layer exercised by `block.cpp` is not
under `src/`): per-dimension front and extent, and the flat storage buffer,
addressed row-major in declared tag order (last tag varies fastest). -/
structure Chunk2 where
  front1 : ℕ
  front2 : ℕ
  extent1 : ℕ
  extent2 : ℕ
  buf : ℕ → ℚ

/-- Layout-right flat index of `(i, j)`: `(i − front1)·extent2 + (j − front2)`. -/
def Chunk2.flatIndex (c : Chunk2) (i j : ℕ) : ℕ :=
  (i - c.front1) * c.extent2 + (j - c.front2)

/-- Element read at the index `i` on `D1` and `j` on `D2`. -/
def Chunk2.read (c : Chunk2) (i j : ℕ) : ℚ :=
  c.buf (c.flatIndex i j)

/-- A tag-labelled index: the dimension tag it carries and the index value. -/
structure TaggedIndex where
  tag : Tag
  uid : ℕ

/-- Modelled from the spec: tag-based projection of a two-argument element
access - the argument whose tag matches `d` is routed to dimension `d`,
whatever its position in the argument list. -/
def selectByTag (d : Tag) (p q : TaggedIndex) : ℕ :=
  if p.tag = d then p.uid else q.uid

/-- `chunk(e1, e2)` over `Dom<D1, D2>`: element access with two tag-labelled
indices; the tags, not the argument positions, decide the projection. -/
def Chunk2.access (c : Chunk2) (d1 d2 : Tag) (p q : TaggedIndex) : ℚ :=
  c.read (selectByTag d1 p q) (selectByTag d2 p q)

/-- C4: for a chunk over `Dom<D1, D2>` with distinct tags and indices
`i1` tagged `D1`, `i2` tagged `D2`, access with the arguments in either
positional order yields the same element, namely the `(i1, i2)` entry:
`c(i2, i1) == c(i1, i2)`. -/
theorem chunk_access_tag_reorder (c : Chunk2) (d1 d2 : Tag) (i1 i2 : ℕ)
    (hne : d1 ≠ d2) :
    c.access d1 d2 ⟨d2, i2⟩ ⟨d1, i1⟩ = c.access d1 d2 ⟨d1, i1⟩ ⟨d2, i2⟩
      ∧ c.access d1 d2 ⟨d1, i1⟩ ⟨d2, i2⟩ = c.read i1 i2 := by
  unfold Chunk2.access selectByTag
  simp [hne, Ne.symm hne]

/-- Witness for C4: a `3 × 4` chunk with tags `0` and `1`, indices `(1, 2)`. -/
theorem chunk_access_tag_reorder_witness :
    Chunk2.access ⟨0, 0, 3, 4, fun n => (n : ℚ)⟩ 0 1 ⟨1, 2⟩ ⟨0, 1⟩
        = Chunk2.access ⟨0, 0, 3, 4, fun n => (n : ℚ)⟩ 0 1 ⟨0, 1⟩ ⟨1, 2⟩
      ∧ Chunk2.access ⟨0, 0, 3, 4, fun n => (n : ℚ)⟩ 0 1 ⟨0, 1⟩ ⟨1, 2⟩
        = Chunk2.read ⟨0, 0, 3, 4, fun n => (n : ℚ)⟩ 1 2 :=
  chunk_access_tag_reorder ⟨0, 0, 3, 4, fun n => (n : ℚ)⟩ 0 1 1 2 (by decide)

/-- Modelled from the spec: a one-dimensional chunk-span produced by slicing
a 2-D chunk by a single index - one dimension dropped, reads through the
parent's buffer at `offset + (i − front)·stride`. -/
structure Span1 where
  front : ℕ
  extent : ℕ
  offset : ℕ
  stride : ℕ
  buf : ℕ → ℚ

/-- Span element read. -/
def Span1.read (s : Span1) (i : ℕ) : ℚ :=
  s.buf (s.offset + (i - s.front) * s.stride)

/-- `chunk[MCoord<D2>(v)]`: slicing by a single index on the second tag drops
`D2` and keeps `D1` with a strided layout (`layout_stride`, stride `extent2`),
as for `block_x` in `block.cpp`. -/
def Chunk2.sliceAt2 (c : Chunk2) (v : ℕ) : Span1 :=
  ⟨c.front1, c.extent1, v - c.front2, c.extent2, c.buf⟩

/-- `chunk[MCoord<D1>(u)]`: slicing by a single index on the first tag drops
`D1`; the remaining `D2` stays contiguous (`layout_right`), as for `block_v`
in `block.cpp`. -/
def Chunk2.sliceAt1 (c : Chunk2) (u : ℕ) : Span1 :=
  ⟨c.front2, c.extent2, (u - c.front1) * c.extent2, 1, c.buf⟩

/-- Modelled from the spec: a two-dimensional chunk-span for subdomain
slicing - both tags kept, the parent's strides, the subdomain's fronts and
extents. -/
structure Span2 where
  front1 : ℕ
  front2 : ℕ
  extent1 : ℕ
  extent2 : ℕ
  offset : ℕ
  stride1 : ℕ
  stride2 : ℕ
  buf : ℕ → ℚ

/-- 2-D span element read. -/
def Span2.read (s : Span2) (i j : ℕ) : ℚ :=
  s.buf (s.offset + (i - s.front1) * s.stride1 + (j - s.front2) * s.stride2)

/-- `chunk[Dom<D1>(front g, extent m)]`: slicing by a subdomain on `D1` keeps
both tags and the parent strides; the extent on `D1` becomes the
subdomain's. -/
def Chunk2.sliceSub1 (c : Chunk2) (g m : ℕ) : Span2 :=
  ⟨g, c.front2, m, c.extent2, (g - c.front1) * c.extent2, c.extent2, 1, c.buf⟩

/-- C5: for a chunk `c` over `Dom<D1, D2>` (fronts may be non-zero), the
element slice `c[i1]` satisfies `c[i1](i2) == c(i1, i2)` with the kept
dimension's extent preserved (and symmetrically for `c[i2]`); the subdomain
slice on `D1` with front `g` and extent `m` keeps both tags, has extent `m`
on `D1`, the parent extent on `D2`, and agrees with the parent on the shared
index set. -/
theorem chunk_slice_consistency (c : Chunk2) (g m : ℕ) (hg : c.front1 ≤ g) :
    (∀ u i2 : ℕ, (c.sliceAt1 u).read i2 = c.read u i2)
      ∧ (∀ u : ℕ, (c.sliceAt1 u).extent = c.extent2)
      ∧ (∀ v i1 : ℕ, (c.sliceAt2 v).read i1 = c.read i1 v)
      ∧ (∀ v : ℕ, (c.sliceAt2 v).extent = c.extent1)
      ∧ (c.sliceSub1 g m).extent1 = m
      ∧ (c.sliceSub1 g m).extent2 = c.extent2
      ∧ (∀ i j : ℕ, g ≤ i → (c.sliceSub1 g m).read i j = c.read i j) := by
  refine ⟨?_, fun _ => rfl, ?_, fun _ => rfl, rfl, rfl, ?_⟩
  · intro u i2
    unfold Chunk2.sliceAt1 Span1.read Chunk2.read Chunk2.flatIndex
    simp [mul_one]
  · intro v i1
    unfold Chunk2.sliceAt2 Span1.read Chunk2.read Chunk2.flatIndex
    simp [Nat.add_comm]
  · intro i j hi
    unfold Chunk2.sliceSub1 Span2.read Chunk2.read Chunk2.flatIndex
    simp only [mul_one]
    congr 1
    have h2 : g - c.front1 + (i - g) = i - c.front1 := by omega
    rw [← Nat.add_mul, h2]

/-- Witness for C5: the non-zero-front chunk of `block.cpp` - fronts
`(100, 100)`, extents `(101, 101)` - sliced by the subdomain
`(front 110, extent 41)`. -/
theorem chunk_slice_consistency_witness :
    (∀ u i2 : ℕ, (Chunk2.sliceAt1 ⟨100, 100, 101, 101, fun n => (n : ℚ)⟩ u).read i2
        = Chunk2.read ⟨100, 100, 101, 101, fun n => (n : ℚ)⟩ u i2)
      ∧ (∀ u : ℕ, (Chunk2.sliceAt1 ⟨100, 100, 101, 101, fun n => (n : ℚ)⟩ u).extent = 101)
      ∧ (∀ v i1 : ℕ, (Chunk2.sliceAt2 ⟨100, 100, 101, 101, fun n => (n : ℚ)⟩ v).read i1
          = Chunk2.read ⟨100, 100, 101, 101, fun n => (n : ℚ)⟩ i1 v)
      ∧ (∀ v : ℕ, (Chunk2.sliceAt2 ⟨100, 100, 101, 101, fun n => (n : ℚ)⟩ v).extent = 101)
      ∧ (Chunk2.sliceSub1 ⟨100, 100, 101, 101, fun n => (n : ℚ)⟩ 110 41).extent1 = 41
      ∧ (Chunk2.sliceSub1 ⟨100, 100, 101, 101, fun n => (n : ℚ)⟩ 110 41).extent2 = 101
      ∧ (∀ i j : ℕ, 110 ≤ i →
          (Chunk2.sliceSub1 ⟨100, 100, 101, 101, fun n => (n : ℚ)⟩ 110 41).read i j
            = Chunk2.read ⟨100, 100, 101, 101, fun n => (n : ℚ)⟩ i j) :=
  chunk_slice_consistency ⟨100, 100, 101, 101, fun n => (n : ℚ)⟩ 110 41 (by decide)

/-- Apply a list of `(flat index, value)` writes to a buffer, in order. -/
def applyWrites : List (ℕ × ℚ) → (ℕ → ℚ) → (ℕ → ℚ)
  | [], f => f
  | (k, v) :: rest, f => applyWrites rest (fun n => if n = k then v else f n)

/-- The elements `(i on D1, j on D2)` of the rectangle
`[f1, f1+e1) × [f2, f2+e2)` enumerated in `Dom<D2, D1>` declaration order:
`D2` slowest, `D1` fastest - the iteration order of the reordered
destination domain. -/
def rectElemsD2D1 (f1 f2 e1 e2 : ℕ) : List (ℕ × ℕ) :=
  (List.range e2).bind fun k2 =>
    (List.range e1).map fun k1 => (f1 + k1, f2 + k2)

/-- Destination layout: row-major over the reordered tag order `(D2, D1)`,
so the flat index of `(i on D1, j on D2)` is `(j − f2)·e1 + (i − f1)`. -/
def flatIndexD2D1 (f1 f2 e1 : ℕ) (p : ℕ × ℕ) : ℕ :=
  (p.2 - f2) * e1 + (p.1 - f1)

/-- `deepcopy(dst, src)` where `dst` is a chunk over the reordered congruent
domain `Dom<D2, D1>` (same tag set, same per-tag fronts and extents as the
`Dom<D1, D2>` source): iterates in the destination's order, copying value by
value into the destination's layout; returns the destination buffer. -/
def deepcopyD2D1 (src : Chunk2) (dstInit : ℕ → ℚ) : ℕ → ℚ :=
  applyWrites
    ((rectElemsD2D1 src.front1 src.front2 src.extent1 src.extent2).map
      fun p => (flatIndexD2D1 src.front1 src.front2 src.extent1 p, src.read p.1 p.2))
    dstInit

/-- Read of the destination chunk after the deep copy, through the
destination's own `(D2, D1)` layout, at `(i on D1, j on D2)`. -/
def deepcopyRead (src : Chunk2) (dstInit : ℕ → ℚ) (i j : ℕ) : ℚ :=
  deepcopyD2D1 src dstInit (flatIndexD2D1 src.front1 src.front2 src.extent1 (i, j))

lemma applyWrites_of_not_mem (l : List (ℕ × ℚ)) (f : ℕ → ℚ) (k : ℕ)
    (h : k ∉ l.map Prod.fst) : applyWrites l f k = f k := by
  induction l generalizing f with
  | nil => rfl
  | cons a rest ih =>
    obtain ⟨ka, va⟩ := a
    simp only [List.map_cons, List.mem_cons] at h
    push_neg at h
    unfold applyWrites
    rw [ih _ (fun hm => h.2 hm)]
    simp [h.1]

lemma applyWrites_of_mem (l : List (ℕ × ℚ)) (f : ℕ → ℚ) (k : ℕ) (v : ℚ)
    (hnd : (l.map Prod.fst).Nodup) (hm : (k, v) ∈ l) :
    applyWrites l f k = v := by
  induction l generalizing f with
  | nil => exact absurd hm (List.not_mem_nil _)
  | cons a rest ih =>
    obtain ⟨ka, va⟩ := a
    simp only [List.map_cons, List.nodup_cons] at hnd
    obtain ⟨hka, hndr⟩ := hnd
    rcases List.mem_cons.mp hm with heq | hrest
    · obtain ⟨rfl, rfl⟩ := Prod.mk.injEq .. ▸
        And.intro (congrArg Prod.fst heq) (congrArg Prod.snd heq)
      unfold applyWrites
      rw [applyWrites_of_not_mem _ _ _ hka]
      simp
    · unfold applyWrites
      exact ih _ hndr hrest

lemma mem_rectElemsD2D1 (f1 f2 e1 e2 k1 k2 : ℕ) (h1 : k1 < e1) (h2 : k2 < e2) :
    (f1 + k1, f2 + k2) ∈ rectElemsD2D1 f1 f2 e1 e2 := by
  unfold rectElemsD2D1
  simp only [List.mem_bind, List.mem_map, List.mem_range]
  exact ⟨k2, h2, k1, h1, rfl⟩

lemma rect_keys_nodup (f1 f2 e1 e2 : ℕ) :
    (((rectElemsD2D1 f1 f2 e1 e2).map
      (fun p => (flatIndexD2D1 f1 f2 e1 p, (0 : ℚ)))).map Prod.fst).Nodup := by
  rw [List.map_map]
  have hcomp : (Prod.fst ∘ fun p => (flatIndexD2D1 f1 f2 e1 p, (0 : ℚ)))
      = fun p => flatIndexD2D1 f1 f2 e1 p := rfl
  rw [hcomp]
  unfold rectElemsD2D1
  rw [List.map_bind]
  rw [List.nodup_bind]
  constructor
  · intro k2 hk2
    rw [List.map_map]
    refine List.Nodup.map ?_ (List.nodup_range _)
    intro a b hab
    simp only [Function.comp, flatIndexD2D1, Nat.add_sub_cancel_left] at hab
    omega
  · refine List.Pairwise.imp ?_ (List.pairwise_lt_range _)
    intro a b hab x hxa hxb
    simp only [List.map_map, List.mem_map, List.mem_range, Function.comp,
      flatIndexD2D1, Nat.add_sub_cancel_left] at hxa hxb
    obtain ⟨ka, hka, hxa⟩ := hxa
    obtain ⟨kb, hkb, hxb⟩ := hxb
    have hxab : a * e1 + ka = b * e1 + kb := by omega
    have hka2 : a * e1 + ka < (a + 1) * e1 := by
      rw [Nat.add_mul, one_mul]
      omega
    have hkb2 : b * e1 + kb < (b + 1) * e1 := by
      rw [Nat.add_mul, one_mul]
      omega
    have hle : (a + 1) * e1 ≤ b * e1 := Nat.mul_le_mul_right e1 (by omega)
    omega

/-- C6: after `deepcopy(b, a)` between chunks over congruent domains with
reordered tag order (`b` over `Dom<D2, D1>`, `a` over `Dom<D1, D2>`, same
per-tag fronts and extents), `b(e) == a(e)` holds exactly - complete
equality, the very value is copied - for every element `e` of the domain,
each chunk read through its own layout. -/
theorem deepcopy_reorder_identity (src : Chunk2) (dstInit : ℕ → ℚ)
    (k1 k2 : ℕ) (h1 : k1 < src.extent1) (h2 : k2 < src.extent2) :
    deepcopyRead src dstInit (src.front1 + k1) (src.front2 + k2)
      = src.read (src.front1 + k1) (src.front2 + k2) := by
  unfold deepcopyRead deepcopyD2D1
  apply applyWrites_of_mem
  · have h := rect_keys_nodup src.front1 src.front2 src.extent1 src.extent2
    rw [List.map_map] at h ⊢
    have hc1 : (Prod.fst ∘ fun p =>
          (flatIndexD2D1 src.front1 src.front2 src.extent1 p, src.read p.1 p.2))
        = fun p => flatIndexD2D1 src.front1 src.front2 src.extent1 p := rfl
    have hc2 : (Prod.fst ∘ fun p =>
          (flatIndexD2D1 src.front1 src.front2 src.extent1 p, (0 : ℚ)))
        = fun p => flatIndexD2D1 src.front1 src.front2 src.extent1 p := rfl
    rw [hc1]
    rw [hc2] at h
    exact h
  · exact List.mem_map.mpr
      ⟨(src.front1 + k1, src.front2 + k2),
        mem_rectElemsD2D1 _ _ _ _ _ _ h1 h2, rfl⟩

/-- Witness for C6: a `2 × 3` source chunk copied into the reordered
destination; the element `(front1 + 1, front2 + 2)` reads back equal. -/
theorem deepcopy_reorder_identity_witness :
    deepcopyRead ⟨0, 0, 2, 3, fun n => (n : ℚ)⟩ (fun _ => 0) (0 + 1) (0 + 2)
      = Chunk2.read ⟨0, 0, 2, 3, fun n => (n : ℚ)⟩ (0 + 1) (0 + 2) :=
  deepcopy_reorder_identity ⟨0, 0, 2, 3, fun n => (n : ℚ)⟩ (fun _ => 0) 1 2
    (by decide) (by decide)

end DDC
